import Mathlib

/-!
Verification of the tiling-detect-merge pipeline of
`riyaghate/datacenter-detection` (`src/process_census.py`,
`CensusTractProcessor`), as a shallow embedding in Lean 4.

Conventions of the embedding:
* Pixel coordinates and raster dimensions are integers (`ℤ`); Python's
  `range` iteration is reproduced exactly, including empty ranges when the
  stop bound is non-positive.  Note that on `ℤ`, Lean's `%` is Euclidean
  remainder, which agrees with Python's `%` for the non-negative operands
  that occur here.
* Detection geometry (YOLO box coordinates, confidences) is exact rational
  arithmetic (`ℚ`) in place of Python floats; the algorithms under study
  are pure arithmetic and comparisons, which ℚ models faithfully.
* A raster/tile is a pixel function `ℤ → ℤ → ℤ`. Pixel contents play no
  role in any claim below; tiles matter only through their count and
  their recorded origins.
* Fallible steps (a detection oracle that can raise, a list lookup that can
  raise `IndexError`) are modelled with `Except` / `Option`: a Python
  exception aborts the enclosing call, which the error value records.
-/

namespace Datacenter

/-! ### Data model and operations (translated from `src/process_census.py`) -/

/-- Python's `range(0, stop, step)` for a positive `step`, over `ℤ`:
the list `[0, step, 2*step, ...]` of all multiples of `step` below `stop`.
Empty when `stop ≤ 0`.  (A non-positive `step` never occurs in the code
under study; the embedding returns `[]` there to stay total.) -/
def pyRange0 (stop step : ℤ) : List ℤ :=
  if stop ≤ 0 ∨ step ≤ 0 then []
  else (List.range ((stop - 1).toNat / step.toNat + 1)).map (fun i => step * (i : ℤ))

/-- A raster image: pixel value at (row, column). -/
abbrev Image := ℤ → ℤ → ℤ

/-- A tile is itself a small image. -/
abbrev Tile := Image

/-- The tile `image[y:y+tile_size, x:x+tile_size]` (`process_census.py`,
`split_image_into_tiles`): a view of the raster shifted by the tile origin.
Pixel content is irrelevant to every claim; only the traversal structure
(which tiles are appended, in which order) matters. -/
def cropTile (image : Image) (y x : ℤ) : Tile :=
  fun i j => image (y + i) (x + j)

/-- Origins recorded by `CensusTractProcessor.split_image_into_tiles`
(`process_census.py` lines 12-53): the regular grid walked with step
`tile_size - overlap` (y outer, x inner), then a right-edge column when
`width % step != 0`, then a bottom-edge row when `height % step != 0`,
then a bottom-right corner tile when both hold.  Each position is the
tile's top-left corner `(x, y)`. -/
def splitPositions (width height tile_size overlap : ℤ) : List (ℤ × ℤ) :=
  let step := tile_size - overlap
  let ys := pyRange0 (height - tile_size + 1) step
  let xs := pyRange0 (width - tile_size + 1) step
  let regular := ys.flatMap (fun y => xs.map (fun x => (x, y)))
  let rightEdge := if width % step ≠ 0 then ys.map (fun y => (width - tile_size, y)) else []
  let bottomEdge := if height % step ≠ 0 then xs.map (fun x => (x, height - tile_size)) else []
  let corner :=
    if width % step ≠ 0 ∧ height % step ≠ 0 then [(width - tile_size, height - tile_size)]
    else []
  regular ++ rightEdge ++ bottomEdge ++ corner

/-- The tiles list built by `split_image_into_tiles`, with exactly the same
traversal as `splitPositions`: the Python function appends to `tiles` and
`positions` in lockstep at the same four sites. -/
def splitTiles (image : Image) (width height tile_size overlap : ℤ) : List Tile :=
  let step := tile_size - overlap
  let ys := pyRange0 (height - tile_size + 1) step
  let xs := pyRange0 (width - tile_size + 1) step
  let regular := ys.flatMap (fun y => xs.map (fun x => cropTile image y x))
  let rightEdge :=
    if width % step ≠ 0 then ys.map (fun y => cropTile image y (width - tile_size)) else []
  let bottomEdge :=
    if height % step ≠ 0 then xs.map (fun x => cropTile image (height - tile_size) x) else []
  let corner :=
    if width % step ≠ 0 ∧ height % step ≠ 0 then
      [cropTile image (height - tile_size) (width - tile_size)]
    else []
  regular ++ rightEdge ++ bottomEdge ++ corner

/-- `split_image_into_tiles` returns the tiles and their positions. -/
def split_image_into_tiles (image : Image) (width height tile_size overlap : ℤ) :
    List Tile × List (ℤ × ℤ) :=
  (splitTiles image width height tile_size overlap, splitPositions width height tile_size overlap)

/-- Pixel `(px, py)` lies inside the tile region
`[x, x + tile_size) × [y, y + tile_size)` anchored at origin `p = (x, y)`. -/
def coversPixel (p : ℤ × ℤ) (tile_size px py : ℤ) : Prop :=
  p.1 ≤ px ∧ px < p.1 + tile_size ∧ p.2 ≤ py ∧ py < p.2 + tile_size

instance (p : ℤ × ℤ) (ts px py : ℤ) : Decidable (coversPixel p ts px py) := by
  unfold coversPixel; infer_instance

/-- An axis-aligned detection box exactly as stored by the pipeline:
the list `[x1, y1, x2, y2]` of two corners, in tile-local or global pixel
coordinates depending on the stage. -/
structure Box where
  x1 : ℚ
  y1 : ℚ
  x2 : ℚ
  y2 : ℚ
deriving DecidableEq

/-- One candidate returned by the detection oracle for a tile: a box
(`box.xyxy[0]`) plus a confidence (`box.conf[0]`). -/
structure Candidate where
  conf : ℚ
  bbox : Box
deriving DecidableEq

/-- A tile-local detection record built by `process_tiles`
(`process_census.py` lines 55-80). -/
structure TileDet where
  tile_idx : ℕ
  confidence : ℚ
  bbox : Box
  center : ℚ × ℚ
deriving DecidableEq

/-- A global-frame detection record as built by `map_to_full_image`. -/
structure GlobalDet where
  confidence : ℚ
  bbox : Box
  center : ℚ × ℚ
deriving DecidableEq

/-- The record `process_tiles` appends for a passing candidate on tile `i`:
tile index, confidence, tile-local box, and the box midpoint as center. -/
def mkDetection (i : ℕ) (c : Candidate) : TileDet :=
  { tile_idx := i, confidence := c.conf, bbox := c.bbox,
    center := ((c.bbox.x1 + c.bbox.x2) / 2, (c.bbox.y1 + c.bbox.y2) / 2) }

/-- Inner loop of `process_tiles` over one tile's oracle candidates:
`if conf > confidence_threshold: append detection`. -/
def collectDets (i : ℕ) (ct : ℚ) : List Candidate → List TileDet
  | [] => []
  | c :: cs =>
    if c.conf > ct then mkDetection i c :: collectDets i ct cs
    else collectDets i ct cs

/-- Outer loop of `process_tiles` (`for i, tile in enumerate(tiles)`), with
the oracle call `self.model(tile)` allowed to fail; a failure propagates
out of the whole call, as an uncaught Python exception does. -/
def processTilesGo (oracle : Tile → Except Unit (List Candidate)) (ct : ℚ) :
    ℕ → List Tile → Except Unit (List TileDet)
  | _, [] => Except.ok []
  | i, t :: rest =>
    match oracle t with
    | Except.error e => Except.error e
    | Except.ok cands =>
      match processTilesGo oracle ct (i + 1) rest with
      | Except.error e => Except.error e
      | Except.ok ds => Except.ok (collectDets i ct cands ++ ds)

/-- `CensusTractProcessor.process_tiles`: run the oracle on every tile and
collect the detections whose confidence strictly exceeds the threshold. -/
def process_tiles (oracle : Tile → Except Unit (List Candidate))
    (tiles : List Tile) (ct : ℚ) : Except Unit (List TileDet) :=
  processTilesGo oracle ct 0 tiles

/-- `CensusTractProcessor.map_to_full_image` (`process_census.py` lines
82-104): translate each detection's box by `positions[tile_idx]` and
recompute the center as the midpoint of the translated box.  An
out-of-range `tile_idx` is a Python `IndexError`, which aborts the call:
modelled by `none`. -/
def map_to_full_image : List TileDet → List (ℤ × ℤ) → Option (List GlobalDet)
  | [], _ => some []
  | d :: rest, positions =>
    match positions[d.tile_idx]? with
    | none => none
    | some (tx, ty) =>
      match map_to_full_image rest positions with
      | none => none
      | some out =>
        some ({ confidence := d.confidence,
                bbox := ⟨d.bbox.x1 + (tx : ℚ), d.bbox.y1 + (ty : ℚ),
                         d.bbox.x2 + (tx : ℚ), d.bbox.y2 + (ty : ℚ)⟩,
                center := ((d.bbox.x1 + (tx : ℚ) + (d.bbox.x2 + (tx : ℚ))) / 2,
                           (d.bbox.y1 + (ty : ℚ) + (d.bbox.y2 + (ty : ℚ))) / 2) } :: out)

/-- A cv2 `Rect`: origin `(x, y)` plus `width` and `height`.
`cv2.dnn.NMSBoxes` interprets every 4-element box it receives as such a
rectangle.  `remove_duplicate_detections` hands it the stored
`[x1, y1, x2, y2]` lists, so the corner `x2` lands in the width field and
`y2` in the height field. -/
structure Rect where
  x : ℚ
  y : ℚ
  w : ℚ
  h : ℚ
deriving DecidableEq

/-- The rectangle `cv2.dnn.NMSBoxes` reads from a stored pipeline box. -/
def toRect (b : Box) : Rect := ⟨b.x1, b.y1, b.x2, b.y2⟩

/-- Area of a cv2 `Rect` (`width * height`). -/
def rectArea (r : Rect) : ℚ := r.w * r.h

/-- OpenCV `Rect` intersection (`operator &`): the all-zero empty rectangle
when the computed extent is degenerate. -/
def rectInter (a b : Rect) : Rect :=
  let x1 := max a.x b.x
  let y1 := max a.y b.y
  let w := min (a.x + a.w) (b.x + b.w) - x1
  let h := min (a.y + a.h) (b.y + b.h) - y1
  if w ≤ 0 ∨ h ≤ 0 then ⟨0, 0, 0, 0⟩ else ⟨x1, y1, w, h⟩

/-- OpenCV `rectOverlap` = `1 - jaccardDistance`: intersection area over
union area of the two rectangles, with the library's degenerate-case
convention that two rectangles of (combined) vanishing area have distance
0, i.e. overlap 1. -/
def rectOverlap (a b : Rect) : ℚ :=
  if rectArea a + rectArea b ≤ 0 then 1
  else rectArea (rectInter a b) / (rectArea a + rectArea b - rectArea (rectInter a b))

/-- The all-zero rectangle, OpenCV's empty `Rect` and the (never hit)
out-of-range default of the embedding's list lookups. -/
def rect0 : Rect := ⟨0, 0, 0, 0⟩

/-- An all-zero detection record, the (never hit) out-of-range default of
the embedding's list lookups. -/
def gdet0 : GlobalDet := ⟨0, ⟨0, 0, 0, 0⟩, (0, 0)⟩

/-- Comparator used by `GetMaxScoreIndex`'s stable sort: descending score
on (score, index) pairs. -/
def scoreGE (a b : ℚ × ℕ) : Prop := b.1 ≤ a.1

instance : DecidableRel scoreGE :=
  fun a b => inferInstanceAs (Decidable (b.1 ≤ a.1))

instance : IsTotal (ℚ × ℕ) scoreGE := ⟨fun a b => le_total b.1 a.1⟩

instance : IsTrans (ℚ × ℕ) scoreGE := ⟨fun _ _ _ h1 h2 => le_trans h2 h1⟩

/-- OpenCV `GetMaxScoreIndex`: the (score, index) pairs whose score is
strictly above the score threshold, stably sorted by descending score. -/
def getMaxScoreIndex (scores : List ℚ) (threshold : ℚ) : List (ℚ × ℕ) :=
  List.insertionSort scoreGE
    (scores.enum.filterMap (fun p => if p.2 > threshold then some (p.2, p.1) else none))

/-- The greedy loop of OpenCV `NMSFast_` (with `eta = 1`, `top_k = 0`, the
defaults of this call site): walk the sorted pairs and keep a pair exactly
when its rectangle overlaps every previously kept rectangle by at most the
NMS threshold.  Returns the kept pairs in kept order; the C++ code records
the indices, which are the second components. -/
def nmsGreedy (boxes : List Rect) (thr : ℚ) : List (ℚ × ℕ) → List (ℚ × ℕ) → List (ℚ × ℕ)
  | [], _ => []
  | p :: rest, kept =>
    if ∀ q ∈ kept, rectOverlap (boxes.getD p.2 rect0) (boxes.getD q.2 rect0) ≤ thr
    then p :: nmsGreedy boxes thr rest (kept ++ [p])
    else nmsGreedy boxes thr rest kept

/-- `cv2.dnn.NMSBoxes` with the default `eta`/`top_k` used by the code. -/
def nmsBoxes (boxes : List Rect) (scores : List ℚ) (score_threshold nms_threshold : ℚ) :
    List (ℚ × ℕ) :=
  nmsGreedy boxes nms_threshold (getMaxScoreIndex scores score_threshold) []

/-- `CensusTractProcessor.remove_duplicate_detections` (`process_census.py`
lines 106-129): early return on empty input; build the box and score
arrays; call `cv2.dnn.NMSBoxes` with `score_threshold=0.3` and
`nms_threshold=iou_threshold`; return the selected detections, or `[]`
when nothing survives. -/
def remove_duplicate_detections (detections : List GlobalDet) (iou_threshold : ℚ) :
    List GlobalDet :=
  if detections.length = 0 then []
  else
    let boxes := detections.map (fun d => toRect d.bbox)
    let scores := detections.map (fun d => d.confidence)
    let indices := nmsBoxes boxes scores (3 / 10) iou_threshold
    if indices.length > 0 then
      indices.map (fun p => detections.getD p.2 gdet0)
    else []

/-- Modelled from the spec (§4.4, "IoU definition"), for comparison with
the code's overlap measure: Intersection-over-Union of two corner-form
boxes `(x1, y1, x2, y2)` — intersection area over union area, zero for
disjoint boxes and zero-area boxes. -/
def iouSpec (a b : Box) : ℚ :=
  let ix := min a.x2 b.x2 - max a.x1 b.x1
  let iy := min a.y2 b.y2 - max a.y1 b.y1
  let inter := if ix ≤ 0 ∨ iy ≤ 0 then 0 else ix * iy
  let areaA := (a.x2 - a.x1) * (a.y2 - a.y1)
  let areaB := (b.x2 - b.x1) * (b.y2 - b.y1)
  if areaA + areaB - inter ≤ 0 then 0 else inter / (areaA + areaB - inter)

/-- The midpoint of a corner-form box: the `center` value the pipeline
stores next to each bounding box. -/
def centerOfBox (b : Box) : ℚ × ℚ := ((b.x1 + b.x2) / 2, (b.y1 + b.y2) / 2)

/-! ### Concrete inputs used by counterexamples and witnesses -/

/-- Global detection: box `[0,0,10,10]`, confidence 0.9. -/
def gdetA : GlobalDet := ⟨9 / 10, ⟨0, 0, 10, 10⟩, (5, 5)⟩

/-- Global detection: box `[5,5,15,15]`, confidence 0.85. -/
def gdetB : GlobalDet := ⟨85 / 100, ⟨5, 5, 15, 15⟩, (10, 10)⟩

/-- Global detection: box `[1,1,10,10]`, confidence 0.85 (the second box of
the spec's deduplicator example). -/
def gdetD : GlobalDet := ⟨85 / 100, ⟨1, 1, 10, 10⟩, (11 / 2, 11 / 2)⟩

/-- A blank tile, used as a concrete input below. -/
def tile0 : Tile := fun _ _ => 0

/-- A tile whose pixels are all 1, used as a concrete input below. -/
def tile1 : Tile := fun _ _ => 1

/-- A concrete high-confidence candidate detection. -/
def cand90 : Candidate := ⟨9 / 10, ⟨0, 0, 10, 10⟩⟩

/-- A concrete oracle that fails on `tile0` (pixel value 0) and returns
one confident candidate on any other tile. -/
def oracleFail0 : Tile → Except Unit (List Candidate) :=
  fun t => if t 0 0 = 0 then Except.error () else Except.ok [cand90]

/-- A concrete tile-local detection used as witness input. -/
def det0 : TileDet := ⟨0, 9 / 10, ⟨1, 2, 5, 6⟩, (3, 4)⟩

/-- A concrete blank raster. -/
def img0 : Image := fun _ _ => 0

/-- A concrete full-confidence candidate (integer rationals, so that the
confidence comparison reduces definitionally). -/
def candTop : Candidate := ⟨1, ⟨0, 0, 10, 10⟩⟩

/-- A concrete oracle that never fails and reports `candTop` on any tile. -/
def oracleOk : Tile → Except Unit (List Candidate) :=
  fun _ => Except.ok [candTop]

/-- The detections `process_tiles oracleOk` produces on the four tiles of
the 640 × 640 raster (regular tile plus the three duplicated edge tiles). -/
def dets0 : List TileDet :=
  [mkDetection 0 candTop, mkDetection 1 candTop, mkDetection 2 candTop, mkDetection 3 candTop]

end Datacenter

namespace Datacenter

/-! ### Theorems -/

/-- C1.  The full-coverage invariant fails on the code: for the
1080 × 640 raster (which satisfies `width ≥ tile_size` and
`height ≥ tile_size` with the default `tile_size = 640`, `overlap = 100`),
`split_image_into_tiles` emits only the positions `[(0,0), (0,0)]` — the
edge-column condition `width % step != 0` is false at `1080 % 540 = 0`
even though the regular grid stops at `x = 0` — so the in-range pixel
`(700, 0)` lies in no emitted tile region. -/
theorem C1_coverage_fails_at_1080x640 :
    (640 : ℤ) ≤ 1080 ∧ (640 : ℤ) ≤ 640 ∧
    splitPositions 1080 640 640 100 = [(0, 0), (0, 0)] ∧
    (0 : ℤ) ≤ 700 ∧ (700 : ℤ) < 1080 ∧ (0 : ℤ) ≤ 0 ∧ (0 : ℤ) < 640 ∧
    ∀ p ∈ splitPositions 1080 640 640 100, ¬ coversPixel p 640 700 0 := by
  decide

/-- C2 counterexample.  A raster narrower than `tile_size` does not make
tiling fail: `split_image_into_tiles` on a 500 × 640 raster (defaults
`tile_size = 640`, `overlap = 100`) returns a non-empty grid of two
(duplicate) positions with negative x-origin `500 - 640 = -140`, rather
than signalling any `RasterTooSmall`-style error. -/
theorem C2_small_raster_returns_grid :
    splitPositions 500 640 640 100 = [(-140, 0), (-140, 0)] ∧
    (splitPositions 500 640 640 100).length = 2 := by
  decide

/-- Structural fact about the tiler: the x-origin of every emitted position
comes either from the regular x-stride or is the back-shifted edge value
`width - tile_size`; symmetrically for y-origins. -/
theorem splitPositions_origin_cases (w h ts ov : ℤ) (p : ℤ × ℤ)
    (hp : p ∈ splitPositions w h ts ov) :
    (p.1 ∈ pyRange0 (w - ts + 1) (ts - ov) ∨ p.1 = w - ts) ∧
    (p.2 ∈ pyRange0 (h - ts + 1) (ts - ov) ∨ p.2 = h - ts) := by
  unfold splitPositions at hp
  rcases List.mem_append.1 hp with hp | hp
  · rcases List.mem_append.1 hp with hp | hp
    · rcases List.mem_append.1 hp with hp | hp
      · rcases List.mem_flatMap.1 hp with ⟨y, hy, hxy⟩
        rcases List.mem_map.1 hxy with ⟨x, hx, rfl⟩
        exact ⟨Or.inl hx, Or.inl hy⟩
      · split_ifs at hp with hc
        · rcases List.mem_map.1 hp with ⟨y, hy, rfl⟩
          exact ⟨Or.inr rfl, Or.inl hy⟩
        · exact absurd hp (List.not_mem_nil p)
    · split_ifs at hp with hc
      · rcases List.mem_map.1 hp with ⟨x, hx, rfl⟩
        exact ⟨Or.inl hx, Or.inr rfl⟩
      · exact absurd hp (List.not_mem_nil p)
  · split_ifs at hp with hc
    · rcases List.mem_singleton.1 hp with rfl
      exact ⟨Or.inr rfl, Or.inr rfl⟩
    · exact absurd hp (List.not_mem_nil p)

/-- C2 amended.  For every raster with `width < tile_size` (default
`tile_size = 640`, `overlap = 100`), tiling does not fail and produces no
regular-grid tile: every position it emits (there may be none, or
duplicated edge tiles) has x-origin exactly `width - 640 < 0`, i.e. the
emitted grid is degenerate rather than an error. -/
theorem C2_small_width_positions_negative (w h : ℤ) (hw : w < 640) :
    ∀ p ∈ splitPositions w h 640 100, p.1 = w - 640 ∧ p.1 < 0 := by
  intro p hp
  have hxs : pyRange0 (w - 640 + 1) (640 - 100) = [] := by
    unfold pyRange0
    rw [if_pos]
    left; omega
  have hcase := (splitPositions_origin_cases w h 640 100 p hp).1
  rw [hxs] at hcase
  rcases hcase with hmem | hx
  · exact absurd hmem (List.not_mem_nil _)
  · exact ⟨hx, by omega⟩

/-- C2 amended, witness: at the concrete 500 × 640 raster the amended
statement holds of the first emitted position. -/
theorem C2_small_width_positions_negative_witness :
    (500 : ℤ) < 640 ∧ (((-140 : ℤ), (0 : ℤ)).1 = 500 - 640 ∧ ((-140 : ℤ), (0 : ℤ)).1 < 0) :=
  ⟨by decide, C2_small_width_positions_negative 500 640 (by decide) ((-140), 0) (by decide)⟩

/-- C4.  For the 1280 × 1280 raster with `tile_size = 640`, `overlap = 100`
(step 540), the emitted positions are exactly the nine listed, and the set
of x-origins (and likewise y-origins) is exactly `{0, 540, 640}`: `{0, 540}`
from the regular stride plus the edge tiles at `1280 - 640 = 640`. -/
theorem C4_origins_1280 :
    splitPositions 1280 1280 640 100 =
      [(0, 0), (540, 0), (0, 540), (540, 540),
       (640, 0), (640, 540), (0, 640), (540, 640), (640, 640)] ∧
    (∀ p ∈ splitPositions 1280 1280 640 100,
      p.1 ∈ ([0, 540, 640] : List ℤ) ∧ p.2 ∈ ([0, 540, 640] : List ℤ)) ∧
    (∀ v ∈ ([0, 540, 640] : List ℤ),
      (∃ p ∈ splitPositions 1280 1280 640 100, p.1 = v) ∧
      (∃ p ∈ splitPositions 1280 1280 640 100, p.2 = v)) := by
  decide

/-- Unfolding lemma: `collectDets` is a filter by the strict comparison
`confidence_threshold < conf` followed by record construction. -/
theorem collectDets_eq_filter (i : ℕ) (ct : ℚ) (cs : List Candidate) :
    collectDets i ct cs = (cs.filter fun c => decide (ct < c.conf)).map (mkDetection i) := by
  induction cs with
  | nil => rfl
  | cons c cs ih =>
    by_cases hc : ct < c.conf
    · simp [collectDets, List.filter_cons, hc, ih]
    · simp [collectDets, List.filter_cons, hc, ih]

/-- Characterization of `processTilesGo` when the oracle never fails. -/
theorem processTilesGo_pure (o : Tile → List Candidate) (ct : ℚ) :
    ∀ (tiles : List Tile) (i : ℕ),
      processTilesGo (fun t => Except.ok (o t)) ct i tiles =
        Except.ok ((tiles.enumFrom i).flatMap fun p =>
          ((o p.2).filter fun c => decide (ct < c.conf)).map (mkDetection p.1)) := by
  intro tiles
  induction tiles with
  | nil => intro i; rfl
  | cons t rest ih =>
    intro i
    simp only [processTilesGo, ih (i + 1), List.enumFrom, List.flatMap_cons]
    rw [collectDets_eq_filter]

/-- C3 counterexample.  An oracle failure on one tile does not merely skip
that tile: on the two-tile input `[tile0, tile1]`, where the oracle fails
on `tile0` but would return a candidate of confidence 0.9 > 0.85 on
`tile1`, `process_tiles` returns an error — the whole raster run is
aborted and the surviving tile contributes nothing. -/
theorem C3_oracle_failure_aborts_run :
    oracleFail0 tile1 = Except.ok [cand90] ∧
    (85 / 100 : ℚ) < cand90.conf ∧
    process_tiles oracleFail0 [tile0, tile1] (85 / 100) = Except.error () := by
  refine ⟨rfl, by norm_num [cand90], rfl⟩

/-- C3 amended.  If the detection oracle fails on any tile of a raster,
single-raster processing does not skip that tile and continue: the failure
propagates and `process_tiles` returns no detections at all.  (The spec's
skip-and-continue policy exists in the repository only at batch
granularity, per raster, in `naip_patch_processor.py`.) -/
theorem C3_oracle_failure_propagates (oracle : Tile → Except Unit (List Candidate))
    (tiles : List Tile) (ct : ℚ) (h : ∃ t ∈ tiles, oracle t = Except.error ()) :
    process_tiles oracle tiles ct = Except.error () := by
  suffices hgo : ∀ (ts : List Tile) (i : ℕ), (∃ t ∈ ts, oracle t = Except.error ()) →
      processTilesGo oracle ct i ts = Except.error () from hgo tiles 0 h
  intro ts
  induction ts with
  | nil => intro i hex; rcases hex with ⟨t, ht, _⟩; exact absurd ht (List.not_mem_nil t)
  | cons t rest ih =>
    intro i hex
    rcases hex with ⟨t', ht', herr⟩
    rcases List.mem_cons.1 ht' with rfl | hmem
    · simp only [processTilesGo, herr]
    · cases hoc : oracle t with
      | error e => simp only [processTilesGo, hoc]
      | ok cands => simp only [processTilesGo, hoc, ih (i + 1) ⟨t', hmem, herr⟩]

/-- C3 amended, witness: on the concrete failing input, the hypothesis
holds and the whole run errors. -/
theorem C3_oracle_failure_propagates_witness :
    oracleFail0 tile0 = Except.error () ∧
    process_tiles oracleFail0 [tile0, tile1] (85 / 100) = Except.error () :=
  ⟨rfl, C3_oracle_failure_propagates oracleFail0 [tile0, tile1] (85 / 100)
    ⟨tile0, List.mem_cons_self tile0 [tile1], rfl⟩⟩

/-- C6.  The detector adapter's confidence filter is the strict comparison
`conf > confidence_threshold`: with a never-failing oracle, `process_tiles`
returns exactly the candidates with `ct < conf`, each turned into a record
by `mkDetection` — so a candidate whose confidence equals `ct` is excluded,
and every candidate with confidence strictly above `ct` is kept. -/
theorem C6_confidence_filter_strict (o : Tile → List Candidate)
    (tiles : List Tile) (ct : ℚ) :
    process_tiles (fun t => Except.ok (o t)) tiles ct =
      Except.ok (tiles.enum.flatMap fun p =>
        ((o p.2).filter fun c => decide (ct < c.conf)).map (mkDetection p.1)) :=
  processTilesGo_pure o ct tiles 0

/-- C7.  Coordinate mapping is a pure translation and a round trip: for
every tile-local detection `d` and position list `ps` with `d.tile_idx` in
range (origin `(ox, oy)`), the mapped record translates both corners by
`(ox, oy)`, recomputes the center as the midpoint of the translated box,
and subtracting `(ox, oy)` from the global box recovers the original box
exactly. -/
theorem C7_translation_roundtrip (d : TileDet) (ps : List (ℤ × ℤ))
    (h : d.tile_idx < ps.length) :
    map_to_full_image [d] ps = some
      [{ confidence := d.confidence,
         bbox := ⟨d.bbox.x1 + ((ps.get ⟨d.tile_idx, h⟩).1 : ℚ),
                  d.bbox.y1 + ((ps.get ⟨d.tile_idx, h⟩).2 : ℚ),
                  d.bbox.x2 + ((ps.get ⟨d.tile_idx, h⟩).1 : ℚ),
                  d.bbox.y2 + ((ps.get ⟨d.tile_idx, h⟩).2 : ℚ)⟩,
         center := ((d.bbox.x1 + ((ps.get ⟨d.tile_idx, h⟩).1 : ℚ) +
                     (d.bbox.x2 + ((ps.get ⟨d.tile_idx, h⟩).1 : ℚ))) / 2,
                    (d.bbox.y1 + ((ps.get ⟨d.tile_idx, h⟩).2 : ℚ) +
                     (d.bbox.y2 + ((ps.get ⟨d.tile_idx, h⟩).2 : ℚ))) / 2) }] ∧
    (d.bbox.x1 + ((ps.get ⟨d.tile_idx, h⟩).1 : ℚ)) - ((ps.get ⟨d.tile_idx, h⟩).1 : ℚ) = d.bbox.x1 ∧
    (d.bbox.y1 + ((ps.get ⟨d.tile_idx, h⟩).2 : ℚ)) - ((ps.get ⟨d.tile_idx, h⟩).2 : ℚ) = d.bbox.y1 ∧
    (d.bbox.x2 + ((ps.get ⟨d.tile_idx, h⟩).1 : ℚ)) - ((ps.get ⟨d.tile_idx, h⟩).1 : ℚ) = d.bbox.x2 ∧
    (d.bbox.y2 + ((ps.get ⟨d.tile_idx, h⟩).2 : ℚ)) - ((ps.get ⟨d.tile_idx, h⟩).2 : ℚ) = d.bbox.y2 := by
  have hget : ps[d.tile_idx]? = some (ps.get ⟨d.tile_idx, h⟩) := by
    rw [List.getElem?_eq_getElem h, List.get_eq_getElem]
  refine ⟨?_, by ring, by ring, by ring, by ring⟩
  rcases hp : ps.get ⟨d.tile_idx, h⟩ with ⟨tx, ty⟩
  simp only [map_to_full_image, hget]
  rw [hp]

/-- C7 witness: the round trip evaluated on the concrete detection `det0`
with origin `(3, 4)`. -/
theorem C7_translation_roundtrip_witness :
    det0.tile_idx < [((3 : ℤ), (4 : ℤ))].length ∧
    map_to_full_image [det0] [(3, 4)] =
      some [{ confidence := 9 / 10, bbox := ⟨4, 6, 8, 10⟩, center := (6, 8) }] :=
  ⟨by decide,
    (C7_translation_roundtrip det0 [(3, 4)] (by decide)).1.trans (by norm_num [det0])⟩

/-- The tiles list is the positions list mapped through `cropTile`: the
two lists are built by the same traversal. -/
theorem splitTiles_eq_map (img : Image) (w h ts ov : ℤ) :
    splitTiles img w h ts ov =
      (splitPositions w h ts ov).map (fun p => cropTile img p.2 p.1) := by
  unfold splitTiles splitPositions
  simp only [List.map_append, List.map_flatMap, List.map_map]
  split_ifs <;> simp only [List.map_map, List.map_cons, List.map_nil] <;> rfl

/-- Every detection collected for tile `i` carries `tile_idx = i`. -/
theorem collectDets_tile_idx (i : ℕ) (ct : ℚ) :
    ∀ cs : List Candidate, ∀ d ∈ collectDets i ct cs, d.tile_idx = i := by
  intro cs
  induction cs with
  | nil => intro d hd; exact absurd hd (List.not_mem_nil d)
  | cons c cs ih =>
    intro d hd
    by_cases hc : ct < c.conf
    · simp only [collectDets, if_pos hc] at hd
      rcases List.mem_cons.1 hd with rfl | hd
      · rfl
      · exact ih d hd
    · simp only [collectDets, if_neg hc] at hd
      exact ih d hd

/-- Detections produced from the tail of the tile list starting at index
`i` have `tile_idx < i + length`. -/
theorem processTilesGo_tile_idx_lt (oracle : Tile → Except Unit (List Candidate)) (ct : ℚ) :
    ∀ (tiles : List Tile) (i : ℕ) (dets : List TileDet),
      processTilesGo oracle ct i tiles = Except.ok dets →
      ∀ d ∈ dets, d.tile_idx < i + tiles.length := by
  intro tiles
  induction tiles with
  | nil =>
    intro i dets hok d hd
    simp only [processTilesGo] at hok
    injection hok with h
    subst h
    exact absurd hd (List.not_mem_nil d)
  | cons t rest ih =>
    intro i dets hok d hd
    simp only [processTilesGo] at hok
    cases hoc : oracle t with
    | error e => rw [hoc] at hok; cases hok
    | ok cands =>
      rw [hoc] at hok
      cases hrec : processTilesGo oracle ct (i + 1) rest with
      | error e => rw [hrec] at hok; cases hok
      | ok ds =>
        rw [hrec] at hok
        injection hok with hde
        subst hde
        rcases List.mem_append.1 hd with hd | hd
        · have := collectDets_tile_idx i ct cands d hd
          simp only [List.length_cons]
          omega
        · have := ih (i + 1) ds hrec d hd
          simp only [List.length_cons]
          omega

/-- If every detection's `tile_idx` is in range, the coordinate-mapping
lookup never fails. -/
theorem map_to_full_image_isSome (dets : List TileDet) (ps : List (ℤ × ℤ))
    (h : ∀ d ∈ dets, d.tile_idx < ps.length) :
    (map_to_full_image dets ps).isSome := by
  induction dets with
  | nil => rfl
  | cons d rest ih =>
    have hd : d.tile_idx < ps.length := h d (List.mem_cons_self d rest)
    have hget : ps[d.tile_idx]? = some (ps.get ⟨d.tile_idx, hd⟩) := by
      rw [List.getElem?_eq_getElem hd, List.get_eq_getElem]
    have hrest := ih (fun x hx => h x (List.mem_cons_of_mem d hx))
    rcases hp : ps.get ⟨d.tile_idx, hd⟩ with ⟨tx, ty⟩
    rw [hp] at hget
    simp only [map_to_full_image, hget]
    cases hm : map_to_full_image rest ps with
    | none => rw [hm] at hrest; cases hrest
    | some out => rfl

/-- C9.  Safety of the pipeline's own index plumbing: the tiler returns
tiles and positions lists of equal length; every detection emitted by
`process_tiles` on those tiles has `tile_idx` a valid index into the
positions list; consequently `map_to_full_image` fed the pipeline's own
tiler and detector output never hits an out-of-bounds lookup. -/
theorem C9_index_safety (img : Image) (w h ts ov : ℤ)
    (oracle : Tile → Except Unit (List Candidate)) (ct : ℚ) (dets : List TileDet)
    (hok : process_tiles oracle (split_image_into_tiles img w h ts ov).1 ct = Except.ok dets) :
    (split_image_into_tiles img w h ts ov).1.length =
      (split_image_into_tiles img w h ts ov).2.length ∧
    (∀ d ∈ dets, d.tile_idx < (split_image_into_tiles img w h ts ov).2.length) ∧
    (map_to_full_image dets (split_image_into_tiles img w h ts ov).2).isSome := by
  have hlen : (split_image_into_tiles img w h ts ov).1.length =
      (split_image_into_tiles img w h ts ov).2.length := by
    show (splitTiles img w h ts ov).length = (splitPositions w h ts ov).length
    rw [splitTiles_eq_map, List.length_map]
  have hidx : ∀ d ∈ dets, d.tile_idx < (split_image_into_tiles img w h ts ov).2.length := by
    intro d hd
    have := processTilesGo_tile_idx_lt oracle ct
      (split_image_into_tiles img w h ts ov).1 0 dets hok d hd
    omega
  exact ⟨hlen, hidx, map_to_full_image_isSome dets _ hidx⟩

/-- C9 witness: concrete 640 × 640 raster, four (duplicated) tiles, a pure
oracle, threshold 0. -/
theorem C9_index_safety_witness :
    (split_image_into_tiles img0 640 640 640 100).1.length =
      (split_image_into_tiles img0 640 640 640 100).2.length ∧
    (mkDetection 3 candTop).tile_idx < (split_image_into_tiles img0 640 640 640 100).2.length ∧
    (map_to_full_image dets0 (split_image_into_tiles img0 640 640 640 100).2).isSome := by
  have h := C9_index_safety img0 640 640 640 100 oracleOk 0 dets0 (by rfl)
  exact ⟨h.1, h.2.1 (mkDetection 3 candTop)
    (List.mem_cons_of_mem _ (List.mem_cons_of_mem _
      (List.mem_cons_of_mem _ (List.mem_cons_self _ _)))), h.2.2⟩

/-- C5.  The deduplicator is greedy suppression with pre-filter and
descending-confidence order, and the claim's concrete example does hold
(first conjunct) — but the suppression measure is not the IoU of the
stored corner-form boxes: `remove_duplicate_detections` passes
`[x1, y1, x2, y2]` lists to `cv2.dnn.NMSBoxes`, which reads each as an
`(x, y, width, height)` rectangle.  For `gdetA = ([0,0,10,10], 0.9)` and
`gdetB = ([5,5,15,15], 0.85)` with `iou_threshold = 1/10`, the true IoU of
the two boxes is `1/7 > 1/10`, so by the claim `gdetB` must be discarded;
the code computes the misread rectangles' overlap `1/12 ≤ 1/10` and keeps
both. -/
theorem C5_nms_reads_corner_boxes_as_rects :
    remove_duplicate_detections [gdetA, gdetD] (3 / 10) = [gdetA] ∧
    iouSpec gdetA.bbox gdetB.bbox = 1 / 7 ∧
    (1 / 10 : ℚ) < 1 / 7 ∧
    remove_duplicate_detections [gdetA, gdetB] (1 / 10) = [gdetA, gdetB] := by
  refine ⟨?_, ?_, by norm_num, ?_⟩
  · norm_num [remove_duplicate_detections, nmsBoxes, getMaxScoreIndex, nmsGreedy, scoreGE,
      List.insertionSort, List.orderedInsert, rectOverlap, rectInter, rectArea, toRect,
      rect0, gdet0, gdetA, gdetD, List.enum, List.enumFrom, List.filterMap]
  · norm_num [iouSpec, gdetA, gdetB]
  · norm_num [remove_duplicate_detections, nmsBoxes, getMaxScoreIndex, nmsGreedy, scoreGE,
      List.insertionSort, List.orderedInsert, rectOverlap, rectInter, rectArea, toRect,
      rect0, gdet0, gdetA, gdetB, List.enum, List.enumFrom, List.filterMap]

/-- Normal form of `remove_duplicate_detections`: both early-return
branches coincide with mapping the selected index pairs back over the
input list. -/
theorem remove_duplicate_eq_map (dets : List GlobalDet) (thr : ℚ) :
    remove_duplicate_detections dets thr =
      (nmsBoxes (dets.map fun d => toRect d.bbox) (dets.map fun d => d.confidence)
        (3 / 10) thr).map (fun p => dets.getD p.2 gdet0) := by
  unfold remove_duplicate_detections
  by_cases hd : dets.length = 0
  · rw [if_pos hd]
    rw [List.length_eq_zero.mp hd]
    rfl
  · rw [if_neg hd]
    simp only []
    by_cases hi : (nmsBoxes (dets.map fun d => toRect d.bbox)
        (dets.map fun d => d.confidence) (3 / 10) thr).length > 0
    · rw [if_pos hi]
    · rw [if_neg hi]
      have : nmsBoxes (dets.map fun d => toRect d.bbox)
          (dets.map fun d => d.confidence) (3 / 10) thr = [] := by
        have := Nat.eq_zero_of_not_pos hi
        exact List.length_eq_zero.mp this
      rw [this]
      rfl

/-- The pairs the greedy loop keeps form a sublist of its input. -/
theorem nmsGreedy_sublist (boxes : List Rect) (thr : ℚ) :
    ∀ (l kept : List (ℚ × ℕ)), (nmsGreedy boxes thr l kept).Sublist l := by
  intro l
  induction l with
  | nil => intro kept; simp [nmsGreedy]
  | cons p rest ih =>
    intro kept
    simp only [nmsGreedy]
    split_ifs with hc
    · exact (ih (kept ++ [p])).cons₂ p
    · exact (ih kept).cons p

/-- Invariant of the greedy loop: together with the already-kept prefix,
the kept pairs are pairwise admissible — every later kept pair overlaps
every earlier kept pair by at most the threshold. -/
theorem nmsGreedy_pairwise (boxes : List Rect) (thr : ℚ) :
    ∀ (l kept : List (ℚ × ℕ)),
      kept.Pairwise (fun q p => rectOverlap (boxes.getD p.2 rect0) (boxes.getD q.2 rect0) ≤ thr) →
      (kept ++ nmsGreedy boxes thr l kept).Pairwise
        (fun q p => rectOverlap (boxes.getD p.2 rect0) (boxes.getD q.2 rect0) ≤ thr) := by
  intro l
  induction l with
  | nil => intro kept h; simpa only [nmsGreedy, List.append_nil] using h
  | cons p rest ih =>
    intro kept h
    simp only [nmsGreedy]
    split_ifs with hc
    · have h2 : (kept ++ [p]).Pairwise
          (fun q p => rectOverlap (boxes.getD p.2 rect0) (boxes.getD q.2 rect0) ≤ thr) := by
        rw [List.pairwise_append]
        refine ⟨h, List.pairwise_singleton _ p, ?_⟩
        intro q hq r hr
        rcases List.mem_singleton.1 hr with rfl
        exact hc q hq
      have h3 := ih (kept ++ [p]) h2
      rwa [List.append_assoc, List.singleton_append] at h3
    · exact ih kept h

/-- If the input pairs are already pairwise admissible (and admissible
against the kept prefix), the greedy loop keeps them all. -/
theorem nmsGreedy_all_kept (boxes : List Rect) (thr : ℚ) :
    ∀ (l kept : List (ℚ × ℕ)),
      l.Pairwise (fun q p => rectOverlap (boxes.getD p.2 rect0) (boxes.getD q.2 rect0) ≤ thr) →
      (∀ p ∈ l, ∀ q ∈ kept, rectOverlap (boxes.getD p.2 rect0) (boxes.getD q.2 rect0) ≤ thr) →
      nmsGreedy boxes thr l kept = l := by
  intro l
  induction l with
  | nil => intro kept _ _; rfl
  | cons p rest ih =>
    intro kept hpw hall
    rcases List.pairwise_cons.1 hpw with ⟨hhead, htail⟩
    have hc : ∀ q ∈ kept, rectOverlap (boxes.getD p.2 rect0) (boxes.getD q.2 rect0) ≤ thr :=
      fun q hq => hall p (List.mem_cons_self p rest) q hq
    simp only [nmsGreedy, if_pos hc]
    congr 1
    refine ih (kept ++ [p]) htail ?_
    intro r hr q hq
    rcases List.mem_append.1 hq with hq | hq
    · exact hall r (List.mem_cons_of_mem p hr) q hq
    · rcases List.mem_singleton.1 hq with rfl
      exact hhead r hr

/-- Every pair produced by `GetMaxScoreIndex` records a valid index, the
score stored at that index, and a score strictly above the threshold. -/
theorem getMaxScoreIndex_mem (scores : List ℚ) (t : ℚ) (p : ℚ × ℕ)
    (hp : p ∈ getMaxScoreIndex scores t) :
    p.2 < scores.length ∧ scores.getD p.2 0 = p.1 ∧ t < p.1 := by
  unfold getMaxScoreIndex at hp
  have hp2 : p ∈ scores.enum.filterMap
      (fun q => if q.2 > t then some (q.2, q.1) else none) :=
    (List.perm_insertionSort scoreGE _).mem_iff.mp hp
  rcases List.mem_filterMap.1 hp2 with ⟨⟨i, s⟩, hmem, hsome⟩
  by_cases hc : t < s
  · rw [if_pos hc] at hsome
    injection hsome with hps
    subst hps
    have hget : scores[i]? = some s := List.mem_enum_iff_getElem?.1 hmem
    rcases List.getElem?_eq_some.1 hget with ⟨hlt, hval⟩
    refine ⟨hlt, ?_, hc⟩
    rw [List.getD_eq_getElem _ _ hlt, hval]
  · rw [if_neg hc] at hsome
    cases hsome

/-- The pairs selected by `nmsBoxes` inherit the `GetMaxScoreIndex`
invariants and are sorted by descending score. -/
theorem nmsBoxes_mem (boxes : List Rect) (scores : List ℚ) (st nt : ℚ) (p : ℚ × ℕ)
    (hp : p ∈ nmsBoxes boxes scores st nt) :
    p.2 < scores.length ∧ scores.getD p.2 0 = p.1 ∧ st < p.1 :=
  getMaxScoreIndex_mem scores st p
    ((nmsGreedy_sublist boxes nt (getMaxScoreIndex scores st) []).mem hp)

/-- The selected pairs are sorted by descending score. -/
theorem nmsBoxes_sorted (boxes : List Rect) (scores : List ℚ) (st nt : ℚ) :
    (nmsBoxes boxes scores st nt).Sorted scoreGE :=
  (List.sorted_insertionSort scoreGE _).sublist
    (nmsGreedy_sublist boxes nt (getMaxScoreIndex scores st) [])

/-- The selected pairs are pairwise admissible for the NMS threshold. -/
theorem nmsBoxes_pairwise (boxes : List Rect) (scores : List ℚ) (st nt : ℚ) :
    (nmsBoxes boxes scores st nt).Pairwise
      (fun q p => rectOverlap (boxes.getD p.2 rect0) (boxes.getD q.2 rect0) ≤ nt) := by
  have h := nmsGreedy_pairwise boxes nt (getMaxScoreIndex scores st) [] List.Pairwise.nil
  simpa only [List.nil_append] using h

/-- A threshold filter that passes everything is a plain reindexing. -/
theorem filterMap_threshold_all (t : ℚ) :
    ∀ ps : List (ℕ × ℚ), (∀ p ∈ ps, t < p.2) →
      (ps.filterMap fun p => if p.2 > t then some (p.2, p.1) else none) =
        ps.map fun p => (p.2, p.1) := by
  intro ps
  induction ps with
  | nil => intro _; rfl
  | cons p ps ih =>
    intro h
    have hfa : (if p.2 > t then some (p.2, p.1) else none) = some (p.2, p.1) :=
      if_pos (h p (List.mem_cons_self p ps))
    rw [List.filterMap_cons, hfa, ih fun q hq => h q (List.mem_cons_of_mem p hq)]
    rfl

/-- `Pairwise` transfers from a list to its enumeration. -/
theorem pairwise_enum_of_pairwise {α : Type} {R : α → α → Prop} (l : List α)
    (hl : l.Pairwise R) : l.enum.Pairwise (fun a b => R a.2 b.2) := by
  rw [List.pairwise_iff_getElem] at hl ⊢
  intro i j hi hj hij
  rw [List.enum_length] at hi hj
  simp only [List.getElem_enum]
  exact hl i j hi hj hij

/-- In-range `getD` commutes with `map` regardless of the defaults. -/
theorem getD_map_of_lt {α β : Type} (l : List α) (f : α → β) (dα : α) (dβ : β) (i : ℕ)
    (h : i < l.length) : (l.map f).getD i dβ = f (l.getD i dα) := by
  have h2 : i < (l.map f).length := by simpa using h
  rw [List.getD_eq_getElem _ _ h2, List.getD_eq_getElem _ _ h, List.getElem_map]

/-- Every index pair selected for `dets` is in range, carries the stored
confidence as its score, and passed the 0.3 pre-filter. -/
theorem nmsBoxes_mem_dets (dets : List GlobalDet) (thr : ℚ) (p : ℚ × ℕ)
    (hp : p ∈ nmsBoxes (dets.map fun d => toRect d.bbox)
      (dets.map fun d => d.confidence) (3 / 10) thr) :
    p.2 < dets.length ∧ (dets.getD p.2 gdet0).confidence = p.1 ∧ (3 : ℚ) / 10 < p.1 := by
  obtain ⟨h1, h2, h3⟩ := nmsBoxes_mem _ _ _ _ p hp
  rw [List.length_map] at h1
  refine ⟨h1, ?_, h3⟩
  rw [← h2, getD_map_of_lt dets (fun d => d.confidence) gdet0 0 p.2 h1]

/-- Every detection returned by the deduplicator is one of its inputs. -/
theorem dedupe_output_subset (dets : List GlobalDet) (thr : ℚ) :
    ∀ d ∈ remove_duplicate_detections dets thr, d ∈ dets := by
  rw [remove_duplicate_eq_map dets thr]
  intro d hd
  rcases List.mem_map.1 hd with ⟨p, hp, rfl⟩
  have h1 := (nmsBoxes_mem_dets dets thr p hp).1
  rw [List.getD_eq_getElem _ _ h1]
  exact List.getElem_mem h1

/-- Every detection returned by the deduplicator scored above the 0.3
pre-filter. -/
theorem dedupe_output_conf (dets : List GlobalDet) (thr : ℚ) :
    ∀ d ∈ remove_duplicate_detections dets thr, (3 : ℚ) / 10 < d.confidence := by
  rw [remove_duplicate_eq_map dets thr]
  intro d hd
  rcases List.mem_map.1 hd with ⟨p, hp, rfl⟩
  obtain ⟨_, h2, h3⟩ := nmsBoxes_mem_dets dets thr p hp
  rw [h2]
  exact h3

/-- The deduplicator's output is ordered by non-increasing confidence. -/
theorem dedupe_output_sorted (dets : List GlobalDet) (thr : ℚ) :
    (remove_duplicate_detections dets thr).Pairwise
      (fun d e => e.confidence ≤ d.confidence) := by
  rw [remove_duplicate_eq_map dets thr, List.pairwise_map]
  refine List.Pairwise.imp_of_mem ?_ (nmsBoxes_sorted _ _ _ _)
  intro p q hp hq hr
  obtain ⟨_, hp2, _⟩ := nmsBoxes_mem_dets dets thr p hp
  obtain ⟨_, hq2, _⟩ := nmsBoxes_mem_dets dets thr q hq
  rw [hp2, hq2]
  exact hr

/-- The deduplicator's output is pairwise admissible: each later kept
detection's rectangle (as `NMSBoxes` reads it) overlaps each earlier kept
one by at most the threshold. -/
theorem dedupe_output_pairwise (dets : List GlobalDet) (thr : ℚ) :
    (remove_duplicate_detections dets thr).Pairwise
      (fun d e => rectOverlap (toRect e.bbox) (toRect d.bbox) ≤ thr) := by
  rw [remove_duplicate_eq_map dets thr, List.pairwise_map]
  refine List.Pairwise.imp_of_mem ?_ (nmsBoxes_pairwise _ _ _ _)
  intro p q hp hq hr
  obtain ⟨hp1, _, _⟩ := nmsBoxes_mem_dets dets thr p hp
  obtain ⟨hq1, _, _⟩ := nmsBoxes_mem_dets dets thr q hq
  rwa [getD_map_of_lt dets (fun d => toRect d.bbox) gdet0 rect0 p.2 hp1,
    getD_map_of_lt dets (fun d => toRect d.bbox) gdet0 rect0 q.2 hq1] at hr

/-- Fixed-point characterization of the deduplicator: a detection list
whose elements all pass the 0.3 pre-filter, that is ordered by
non-increasing confidence, and that is pairwise admissible for the
threshold, comes back unchanged. -/
theorem dedupe_of_invariants (D : List GlobalDet) (thr : ℚ)
    (hconf : ∀ d ∈ D, (3 : ℚ) / 10 < d.confidence)
    (hsort : D.Pairwise (fun d e => e.confidence ≤ d.confidence))
    (hpw : D.Pairwise (fun d e => rectOverlap (toRect e.bbox) (toRect d.bbox) ≤ thr)) :
    remove_duplicate_detections D thr = D := by
  have hall : ∀ p ∈ (D.map fun d => d.confidence).enum, (3 : ℚ) / 10 < p.2 := by
    intro p hp
    have h1 : (D.map fun d => d.confidence)[p.1]? = some p.2 :=
      List.mem_enum_iff_getElem?.1 hp
    rcases List.getElem?_eq_some.1 h1 with ⟨hlt, hval⟩
    have hmem : p.2 ∈ D.map fun d => d.confidence := hval ▸ List.getElem_mem hlt
    rcases List.mem_map.1 hmem with ⟨d, hd, hdv⟩
    rw [← hdv]
    exact hconf d hd
  have hpairs : getMaxScoreIndex (D.map fun d => d.confidence) (3 / 10) =
      (D.map fun d => d.confidence).enum.map (fun p => (p.2, p.1)) := by
    unfold getMaxScoreIndex
    rw [filterMap_threshold_all (3 / 10) _ hall]
    apply List.Sorted.insertionSort_eq
    show ((D.map fun d => d.confidence).enum.map fun p => (p.2, p.1)).Pairwise scoreGE
    rw [List.pairwise_map]
    have hs2 : (D.map fun d => d.confidence).Pairwise (fun s t => t ≤ s) := by
      rw [List.pairwise_map]
      exact hsort
    exact pairwise_enum_of_pairwise _ hs2
  have hlenED : ((D.map fun d => d.confidence).enum.map fun p => ((p.2 : ℚ), p.1)).length =
      D.length := by
    simp [List.enum_length]
  have hgreedy : nmsGreedy (D.map fun d => toRect d.bbox) thr
      ((D.map fun d => d.confidence).enum.map fun p => (p.2, p.1)) [] =
      (D.map fun d => d.confidence).enum.map fun p => (p.2, p.1) := by
    apply nmsGreedy_all_kept
    · rw [List.pairwise_iff_getElem]
      intro i j hi hj hij
      rw [hlenED] at hi hj
      simp only [List.getElem_map, List.getElem_enum]
      rw [getD_map_of_lt D (fun d => toRect d.bbox) gdet0 rect0 j hj,
        getD_map_of_lt D (fun d => toRect d.bbox) gdet0 rect0 i hi,
        List.getD_eq_getElem _ _ hj, List.getD_eq_getElem _ _ hi]
      exact List.pairwise_iff_getElem.1 hpw i j hi hj hij
    · intro p hp q hq
      exact absurd hq (List.not_mem_nil q)
  have hfinal : (((D.map fun d => d.confidence).enum.map fun p => ((p.2 : ℚ), p.1)).map
      fun p => D.getD p.2 gdet0) = D := by
    apply List.ext_getElem
    · simp [List.enum_length]
    · intro i h1 h2
      simp only [List.getElem_map, List.getElem_enum]
      exact List.getD_eq_getElem D gdet0 h2
  rw [remove_duplicate_eq_map D thr]
  show (nmsGreedy (D.map fun d => toRect d.bbox) thr
      (getMaxScoreIndex (D.map fun d => d.confidence) (3 / 10)) []).map
      (fun p => D.getD p.2 gdet0) = D
  rw [hpairs, hgreedy, hfinal]

/-- C8.  Deduplication is idempotent: for every list of global detections
and every IoU threshold, running `remove_duplicate_detections` on its own
output with the same threshold returns that output unchanged; and the
degenerate empty input returns the empty list without error. -/
theorem C8_dedupe_idempotent (dets : List GlobalDet) (thr : ℚ) :
    remove_duplicate_detections (remove_duplicate_detections dets thr) thr =
      remove_duplicate_detections dets thr ∧
    remove_duplicate_detections [] thr = [] :=
  ⟨dedupe_of_invariants _ thr (dedupe_output_conf dets thr)
    (dedupe_output_sorted dets thr) (dedupe_output_pairwise dets thr), rfl⟩

/-- Every record collected by the detector's inner loop is a `mkDetection`
of the tile index. -/
theorem collectDets_shape (i : ℕ) (ct : ℚ) :
    ∀ cs : List Candidate, ∀ d ∈ collectDets i ct cs, ∃ c, d = mkDetection i c := by
  intro cs
  induction cs with
  | nil => intro d hd; exact absurd hd (List.not_mem_nil d)
  | cons c cs ih =>
    intro d hd
    by_cases hc : ct < c.conf
    · simp only [collectDets, if_pos hc] at hd
      rcases List.mem_cons.1 hd with rfl | hd
      · exact ⟨c, rfl⟩
      · exact ih d hd
    · simp only [collectDets, if_neg hc] at hd
      exact ih d hd

/-- Every detection produced by the detector loop is a `mkDetection`
record. -/
theorem processTilesGo_shape (oracle : Tile → Except Unit (List Candidate)) (ct : ℚ) :
    ∀ (tiles : List Tile) (i : ℕ) (dets : List TileDet),
      processTilesGo oracle ct i tiles = Except.ok dets →
      ∀ d ∈ dets, ∃ j c, d = mkDetection j c := by
  intro tiles
  induction tiles with
  | nil =>
    intro i dets hok d hd
    simp only [processTilesGo] at hok
    injection hok with h
    subst h
    exact absurd hd (List.not_mem_nil d)
  | cons t rest ih =>
    intro i dets hok d hd
    simp only [processTilesGo] at hok
    cases hoc : oracle t with
    | error e => rw [hoc] at hok; cases hok
    | ok cands =>
      rw [hoc] at hok
      cases hrec : processTilesGo oracle ct (i + 1) rest with
      | error e => rw [hrec] at hok; cases hok
      | ok ds =>
        rw [hrec] at hok
        injection hok with hde
        subst hde
        rcases List.mem_append.1 hd with hd | hd
        · rcases collectDets_shape i ct cands d hd with ⟨c, rfl⟩
          exact ⟨i, c, rfl⟩
        · exact ih (i + 1) ds hrec d hd

/-- Every record built by the coordinate mapper carries the midpoint of
its own (translated) box as center. -/
theorem map_to_full_image_center :
    ∀ (dets : List TileDet) (ps : List (ℤ × ℤ)) (out : List GlobalDet),
      map_to_full_image dets ps = some out →
      ∀ g ∈ out, g.center = centerOfBox g.bbox := by
  intro dets
  induction dets with
  | nil =>
    intro ps out h g hg
    injection h with h
    subst h
    exact absurd hg (List.not_mem_nil g)
  | cons d rest ih =>
    intro ps out h g hg
    simp only [map_to_full_image] at h
    cases hget : ps[d.tile_idx]? with
    | none => rw [hget] at h; cases h
    | some p =>
      obtain ⟨tx, ty⟩ := p
      rw [hget] at h
      cases hm : map_to_full_image rest ps with
      | none => rw [hm] at h; cases h
      | some out2 =>
        rw [hm] at h
        injection h with h
        subst h
        rcases List.mem_cons.1 hg with rfl | hg
        · rfl
        · exact ih ps out2 hm g hg

/-- C10.  Every detection record at every stage satisfies the invariant
`center = midpoint of its own bbox`: `process_tiles` establishes it on
creation, `map_to_full_image` re-establishes it after translating the box,
and `remove_duplicate_detections` preserves it because its output is a
selection of its input records. -/
theorem C10_center_invariant :
    (∀ (oracle : Tile → Except Unit (List Candidate)) (tiles : List Tile) (ct : ℚ)
      (dets : List TileDet), process_tiles oracle tiles ct = Except.ok dets →
      ∀ d ∈ dets, d.center = centerOfBox d.bbox) ∧
    (∀ (dets : List TileDet) (ps : List (ℤ × ℤ)) (out : List GlobalDet),
      map_to_full_image dets ps = some out →
      ∀ g ∈ out, g.center = centerOfBox g.bbox) ∧
    (∀ (gdets : List GlobalDet) (thr : ℚ),
      (∀ g ∈ gdets, g.center = centerOfBox g.bbox) →
      ∀ g ∈ remove_duplicate_detections gdets thr, g.center = centerOfBox g.bbox) := by
  refine ⟨?_, map_to_full_image_center, ?_⟩
  · intro oracle tiles ct dets hok d hd
    rcases processTilesGo_shape oracle ct tiles 0 dets hok d hd with ⟨j, c, rfl⟩
    rfl
  · intro gdets thr hc g hg
    exact hc g (dedupe_output_subset gdets thr g hg)

/-- C10 witness: the invariant checked at one concrete record of each
stage. -/
theorem C10_center_invariant_witness :
    (mkDetection 0 candTop).center = centerOfBox (mkDetection 0 candTop).bbox ∧
    (⟨9 / 10, ⟨4, 6, 8, 10⟩, (6, 8)⟩ : GlobalDet).center =
      centerOfBox (⟨9 / 10, ⟨4, 6, 8, 10⟩, (6, 8)⟩ : GlobalDet).bbox ∧
    gdetA.center = centerOfBox gdetA.bbox := by
  have hb : map_to_full_image [det0] [(3, 4)] =
      some [(⟨9 / 10, ⟨4, 6, 8, 10⟩, (6, 8)⟩ : GlobalDet)] := by
    norm_num [map_to_full_image, det0]
  have hcA : ∀ g ∈ [gdetA], g.center = centerOfBox g.bbox := by
    intro g hg
    rcases List.mem_singleton.1 hg with rfl
    norm_num [gdetA, centerOfBox]
  have hout : remove_duplicate_detections [gdetA] (3 / 10) = [gdetA] := by
    norm_num [remove_duplicate_detections, nmsBoxes, getMaxScoreIndex, nmsGreedy, scoreGE,
      List.insertionSort, List.orderedInsert, rectOverlap, rectInter, rectArea, toRect,
      rect0, gdet0, gdetA, List.enum, List.enumFrom, List.filterMap]
  refine ⟨?_, ?_, ?_⟩
  · exact C10_center_invariant.1 oracleOk [tile0] 0 [mkDetection 0 candTop] (by rfl)
      (mkDetection 0 candTop) (List.mem_cons_self _ _)
  · exact C10_center_invariant.2.1 [det0] [(3, 4)] _ hb _ (List.mem_cons_self _ _)
  · exact C10_center_invariant.2.2 [gdetA] (3 / 10) hcA gdetA
      (by rw [hout]; exact List.mem_cons_self _ _)

end Datacenter
